import Mathlib

/-!
Verification of the ISOGUARD document-analysis core: the paragraph-based
segmenter (`backend/apps/documents/utils/chunking.py`) and the heuristic
compliance analyzer with its result normalizer and status lifecycle
(`backend/apps/documents/utils/analyzer.py`).

Strings are embedded as `List Char`.  Python's `str.split()` / `str.strip()`
whitespace set is modelled by the six ASCII whitespace characters; Python's
`float` values are embedded as exact rationals `ℚ`.
-/

set_option maxRecDepth 10000

namespace Isoguard

/-- The whitespace characters recognised by Python's `str.strip()` /
`str.split()` (restricted to ASCII). -/
def isWS (c : Char) : Bool :=
  c = ' ' || c = '\t' || c = '\n' || c = '\r' || c = '\x0b' || c = '\x0c'

/-- Python `str.strip()`: drop whitespace from both ends. -/
def strip (l : List Char) : List Char :=
  ((l.dropWhile isWS).reverse.dropWhile isWS).reverse

/-- Helper for `words`: `acc` holds the current in-progress word, reversed. -/
def wordsAux : List Char → List Char → List (List Char)
  | [], acc => if acc.isEmpty then [] else [acc.reverse]
  | c :: rest, acc =>
    if isWS c then
      if acc.isEmpty then wordsAux rest [] else acc.reverse :: wordsAux rest []
    else wordsAux rest (c :: acc)

/-- Python `str.split()` with no argument: the maximal whitespace-free
words of a string, in order. -/
def words (l : List Char) : List (List Char) := wordsAux l []

/-- Helper for `splitPara`: split at each non-overlapping occurrence of
`"\n\n"`, scanning left to right (Python `str.split("\n\n")`). -/
def splitParaAux : List Char → List Char → List (List Char)
  | acc, '\n' :: '\n' :: rest => acc.reverse :: splitParaAux [] rest
  | acc, c :: rest => splitParaAux (c :: acc) rest
  | acc, [] => [acc.reverse]

/-- Python `text.split("\n\n")`. -/
def splitPara (l : List Char) : List (List Char) := splitParaAux [] l

/-- The paragraph list built by `semantic_chunk`:
`[p.strip() for p in text.split("\n\n") if p.strip()]`. -/
def paragraphsOf (text : List Char) : List (List Char) :=
  ((splitPara text).map strip).filter (fun p => !p.isEmpty)

/-- The accumulation loop of `semantic_chunk` (`chunking.py` lines 49-60):
greedily grow `current` with `" " + p` while the length test passes, flush
`current.strip()` when it fails and the buffer already reaches `min_len`,
otherwise force-append; finally flush any non-empty buffer. -/
def chunkLoop (minLen maxLen : Nat) : List (List Char) → List Char → List (List Char)
  | [], current => if current.isEmpty then [] else [strip current]
  | p :: rest, current =>
    if current.length + p.length ≤ maxLen then
      chunkLoop minLen maxLen rest (current ++ ' ' :: p)
    else if minLen ≤ current.length then
      strip current :: chunkLoop minLen maxLen rest p
    else
      chunkLoop minLen maxLen rest (current ++ ' ' :: p)

/-- `semantic_chunk(text, min_len, max_len)` from `chunking.py`. -/
def semantic_chunk (text : List Char) (minLen maxLen : Nat) : List (List Char) :=
  chunkLoop minLen maxLen (paragraphsOf text) []

/-- `True` iff running the `semantic_chunk` loop never takes the
force-append branch (the branch taken when appending would exceed `maxLen`
but the buffer is still below `minLen`).  This is the "steady state" of the
segmenter: every time appending would overflow, the buffer is flushable. -/
def noForce (minLen maxLen : Nat) : List (List Char) → List Char → Bool
  | [], _ => true
  | p :: rest, current =>
    if current.length + p.length ≤ maxLen then
      noForce minLen maxLen rest (current ++ ' ' :: p)
    else if minLen ≤ current.length then
      noForce minLen maxLen rest p
    else
      false

/-- Python `text.replace("\r\n", "\n")`: left-to-right non-overlapping
replacement. -/
def replaceCRLF : List Char → List Char
  | '\r' :: '\n' :: rest => '\n' :: replaceCRLF rest
  | c :: rest => c :: replaceCRLF rest
  | [] => []

/-- The newline normalization done by `SemanticChunker.chunk`
(`chunking.py` line 101): `text.replace("\r\n","\n").replace("\r","\n")`. -/
def normalizeNewlines (l : List Char) : List Char :=
  (replaceCRLF l).map (fun c => if c = '\r' then '\n' else c)

/-- Joining a list of strings with a single space between consecutive
entries: the "single space per join" concatenation the spec's testable
property speaks about.  (`joinSp cs = List.intercalate [' '] cs`.) -/
def joinSp : List (List Char) → List Char
  | [] => []
  | [c] => c
  | c :: rest => c ++ ' ' :: joinSp rest

/-- The segment contents produced by `SemanticChunker.chunk`
(`chunking.py` lines 87-114): the empty/blank guard, newline
normalization and strip, then `semantic_chunk`.  (The per-chunk offset
bookkeeping of lines 110-131 decorates these same strings and is not
needed by any claim about contents.) -/
def chunkerContents (minLen maxLen : Nat) (text : List Char) : List (List Char) :=
  if (strip text).isEmpty then []
  else semantic_chunk (strip (normalizeNewlines text)) minLen maxLen

/-! ### Word-level lemmas about the string primitives -/

theorem isWS_sp : isWS ' ' = true := by decide

theorem isWS_nl : isWS '\n' = true := by decide

theorem isWS_cr : isWS '\r' = true := by decide

theorem wordsAux_append_ws (w : Char) (hw : isWS w = true) :
    ∀ (a b acc : List Char),
      wordsAux (a ++ w :: b) acc = wordsAux a acc ++ wordsAux b [] := by
  intro a
  induction a with
  | nil =>
    intro b acc
    simp only [List.nil_append, wordsAux, hw, if_true]
    cases h : acc.isEmpty <;> simp [wordsAux, h]
  | cons c a ih =>
    intro b acc
    simp only [List.cons_append, wordsAux]
    cases hc : isWS c
    · simp only [hc, Bool.false_eq_true, if_false]
      exact ih b (c :: acc)
    · simp only [hc, if_true]
      cases h : acc.isEmpty <;> simp [h, ih]

theorem words_cons_ws {c : Char} (hc : isWS c = true) (l : List Char) :
    words (c :: l) = words l := by
  simp [words, wordsAux, hc]

theorem words_append_ws {w : Char} (hw : isWS w = true) (a b : List Char) :
    words (a ++ w :: b) = words a ++ words b :=
  wordsAux_append_ws w hw a b []

theorem words_all_ws {t : List Char} (h : ∀ c ∈ t, isWS c = true) :
    words t = [] := by
  induction t with
  | nil => rfl
  | cons c t ih =>
    rw [words_cons_ws (h c (List.mem_cons_self c t))]
    exact ih fun x hx => h x (List.mem_cons_of_mem c hx)

theorem words_append_all_ws {t : List Char} (l : List Char)
    (h : ∀ c ∈ t, isWS c = true) : words (l ++ t) = words l := by
  cases t with
  | nil => simp
  | cons c t =>
    rw [words_append_ws (h c (List.mem_cons_self c t)),
      words_all_ws fun x hx => h x (List.mem_cons_of_mem c hx), List.append_nil]

theorem words_dropWhile (l : List Char) :
    words (l.dropWhile isWS) = words l := by
  induction l with
  | nil => rfl
  | cons c l ih =>
    cases hc : isWS c
    · rw [List.dropWhile_cons_of_neg (by simp [hc])]
    · rw [List.dropWhile_cons_of_pos (by simp [hc]), ih, words_cons_ws hc]

theorem words_strip (l : List Char) : words (strip l) = words l := by
  have key : ∀ m : List Char, words ((m.reverse.dropWhile isWS).reverse) = words m := by
    intro m
    conv_rhs =>
      rw [← m.reverse_reverse, ← List.takeWhile_append_dropWhile (p := isWS) (l := m.reverse),
        List.reverse_append]
    exact (words_append_all_ws _ fun c hc =>
      List.mem_takeWhile_imp (List.mem_reverse.mp hc)).symm
  rw [strip, key, words_dropWhile]

theorem words_joinSp (cs : List (List Char)) :
    words (joinSp cs) = (cs.map words).flatten := by
  induction cs with
  | nil => rfl
  | cons c rest ih =>
    cases rest with
    | nil => simp [joinSp]
    | cons d ds =>
      have hj : joinSp (c :: d :: ds) = c ++ ' ' :: joinSp (d :: ds) := rfl
      rw [hj, words_append_ws isWS_sp, ih]
      simp

theorem wordsAux_replaceCRLF : ∀ (l acc : List Char),
    wordsAux (replaceCRLF l) acc = wordsAux l acc := by
  intro l
  induction l using replaceCRLF.induct with
  | case1 rest ih =>
    intro acc
    simp only [replaceCRLF, wordsAux, isWS_nl, isWS_cr, if_true, List.isEmpty_nil]
    cases h : acc.isEmpty <;> simp [h, wordsAux, isWS_nl, ih]
  | case2 c rest hne ih =>
    intro acc
    simp only [replaceCRLF, wordsAux]
    cases hc : isWS c
    · simp only [hc, Bool.false_eq_true, if_false]; exact ih (c :: acc)
    · simp only [hc, if_true]
      cases h : acc.isEmpty <;> simp [h, ih]
  | case3 => intro acc; rfl

theorem wordsAux_mapCR : ∀ (l acc : List Char),
    wordsAux (l.map (fun c => if c = '\r' then '\n' else c)) acc = wordsAux l acc := by
  intro l
  induction l with
  | nil => intro acc; rfl
  | cons c l ih =>
    intro acc
    by_cases hr : c = '\r'
    · subst hr
      simp only [List.map_cons, if_pos rfl, wordsAux, isWS_nl, isWS_cr, if_true]
      cases h : acc.isEmpty <;> simp [h, ih]
    · simp only [List.map_cons, if_neg hr, wordsAux]
      cases hc : isWS c
      · simp only [hc, Bool.false_eq_true, if_false]; exact ih (c :: acc)
      · simp only [hc, if_true]
        cases h : acc.isEmpty <;> simp [h, ih]

theorem words_normalizeNewlines (l : List Char) :
    words (normalizeNewlines l) = words l := by
  rw [normalizeNewlines, words, wordsAux_mapCR, wordsAux_replaceCRLF]
  rfl

theorem flatten_words_splitParaAux : ∀ (acc l : List Char),
    ((splitParaAux acc l).map words).flatten = words (acc.reverse ++ l) := by
  intro acc l
  induction acc, l using splitParaAux.induct with
  | case1 acc rest ih =>
    simp only [splitParaAux, List.map_cons, List.flatten_cons]
    rw [ih, words_append_ws isWS_nl, words_cons_ws isWS_nl]
    simp
  | case2 acc c rest hne ih =>
    simp only [splitParaAux]
    rw [ih]
    simp
  | case3 acc => simp [splitParaAux]

theorem flatten_words_paragraphs (text : List Char) :
    ((paragraphsOf text).map words).flatten = words text := by
  have filt : ∀ cs : List (List Char),
      (((cs.map strip).filter (fun p => !p.isEmpty)).map words).flatten
        = (cs.map words).flatten := by
    intro cs
    induction cs with
    | nil => rfl
    | cons c cs ih =>
      cases h : (strip c).isEmpty
      · rw [List.map_cons, List.filter_cons_of_pos (by simp [h]), List.map_cons,
          List.flatten_cons, List.map_cons, List.flatten_cons, ih, words_strip]
      · have hnil : strip c = [] := List.isEmpty_iff.mp h
        have hw : words c = [] := by rw [← words_strip, hnil]; rfl
        rw [List.map_cons, List.filter_cons_of_neg (by simp [h]), List.map_cons,
          List.flatten_cons, ih, hw, List.nil_append]
  rw [paragraphsOf, splitPara, filt, flatten_words_splitParaAux]
  rfl

theorem flatten_words_chunkLoop (minLen maxLen : Nat) :
    ∀ (paras : List (List Char)) (current : List Char),
      ((chunkLoop minLen maxLen paras current).map words).flatten
        = words current ++ (paras.map words).flatten := by
  intro paras
  induction paras with
  | nil =>
    intro current
    cases h : current.isEmpty
    · simp [chunkLoop, h, words_strip]
    · have : current = [] := List.isEmpty_iff.mp h
      subst this
      simp [chunkLoop, words, wordsAux]
  | cons p rest ih =>
    intro current
    simp only [chunkLoop]
    split_ifs with h1 h2
    · rw [ih, words_append_ws isWS_sp]
      simp
    · simp only [List.map_cons, List.flatten_cons]
      rw [ih, words_strip]
    · rw [ih, words_append_ws isWS_sp]
      simp

theorem flatten_words_semantic_chunk (text : List Char) (minLen maxLen : Nat) :
    ((semantic_chunk text minLen maxLen).map words).flatten = words text := by
  rw [semantic_chunk, flatten_words_chunkLoop, flatten_words_paragraphs]
  rfl

/-! ### Edge-whitespace lemmas: how `strip` interacts with the buffer the
`semantic_chunk` loop builds -/

/-- A string with no whitespace at either end (`strip` leaves it alone). -/
def NoEdgeWS (l : List Char) : Prop :=
  (∀ a, l.head? = some a → isWS a = false) ∧
  (∀ a, l.getLast? = some a → isWS a = false)

theorem noEdgeWS_nil : NoEdgeWS ([] : List Char) :=
  ⟨fun a h => by simp at h, fun a h => by simp at h⟩

theorem dropWhile_head_not (l : List Char) :
    ∀ a, (l.dropWhile isWS).head? = some a → isWS a = false := by
  induction l with
  | nil => intro a h; simp at h
  | cons c l ih =>
    intro a h
    cases hc : isWS c
    · rw [List.dropWhile_cons_of_neg (by simp [hc])] at h
      simp only [List.head?_cons, Option.some_inj] at h
      exact h ▸ hc
    · rw [List.dropWhile_cons_of_pos (by simp [hc])] at h
      exact ih a h

theorem dropWhile_eq_self_of_head (l : List Char)
    (h : ∀ a, l.head? = some a → isWS a = false) :
    l.dropWhile isWS = l := by
  cases l with
  | nil => rfl
  | cons c t => exact List.dropWhile_cons_of_neg (by simp [h c rfl])

theorem strip_eq_self {l : List Char} (h : NoEdgeWS l) : strip l = l := by
  rw [strip, dropWhile_eq_self_of_head l h.1,
    dropWhile_eq_self_of_head l.reverse
      (fun a ha => h.2 a (by rwa [List.head?_reverse] at ha)),
    List.reverse_reverse]

theorem noEdgeWS_strip (l : List Char) : NoEdgeWS (strip l) := by
  rw [strip]
  set X := l.dropWhile isWS with hX
  set Y := X.reverse.dropWhile isWS with hY
  constructor
  · intro a ha
    rw [List.head?_reverse] at ha
    by_cases hYne : Y = []
    · rw [hYne] at ha; simp at ha
    · have : Y.getLast? = X.reverse.getLast? := by
        conv_rhs => rw [← List.takeWhile_append_dropWhile (p := isWS) (l := X.reverse)]
        exact (List.getLast?_append_of_ne_nil _ hYne).symm
      rw [this, List.getLast?_reverse] at ha
      exact dropWhile_head_not l a ha
  · intro a ha
    rw [List.getLast?_reverse] at ha
    exact dropWhile_head_not X.reverse a ha

theorem strip_length_le (l : List Char) : (strip l).length ≤ l.length := by
  have hdw : ∀ (m : List Char), (m.dropWhile isWS).length ≤ m.length := by
    intro m
    induction m with
    | nil => simp
    | cons c t ih =>
      cases hc : isWS c
      · rw [List.dropWhile_cons_of_neg (by simp [hc])]
      · rw [List.dropWhile_cons_of_pos (by simp [hc])]
        exact Nat.le_succ_of_le ih
  calc (strip l).length
      = ((l.dropWhile isWS).reverse.dropWhile isWS).length := by rw [strip, List.length_reverse]
    _ ≤ (l.dropWhile isWS).reverse.length := hdw _
    _ = (l.dropWhile isWS).length := List.length_reverse _
    _ ≤ l.length := hdw _

theorem noEdgeWS_append_space {a b : List Char} (ha : NoEdgeWS a) (hb : NoEdgeWS b)
    (hane : a ≠ []) (hbne : b ≠ []) : NoEdgeWS (a ++ ' ' :: b) := by
  constructor
  · intro x hx
    rw [List.head?_append_of_ne_nil a hane] at hx
    exact ha.1 x hx
  · intro x hx
    rw [List.getLast?_append_cons] at hx
    have : (' ' :: b).getLast? = b.getLast? := by
      have : ' ' :: b = [' '] ++ b := rfl
      rw [this, List.getLast?_append_of_ne_nil _ hbne]
    rw [this] at hx
    exact hb.2 x hx

theorem strip_space_cons {c : List Char} (hc : NoEdgeWS c) : strip (' ' :: c) = c := by
  have h1 : (' ' :: c).dropWhile isWS = c.dropWhile isWS :=
    List.dropWhile_cons_of_pos (by simp [isWS_sp])
  rw [strip, h1, dropWhile_eq_self_of_head c hc.1,
    dropWhile_eq_self_of_head c.reverse
      (fun a ha => hc.2 a (by rwa [List.head?_reverse] at ha)),
    List.reverse_reverse]

/-- Elements of `paragraphsOf text` are non-empty and already stripped. -/
theorem paragraphsOf_clean {text p : List Char} (hp : p ∈ paragraphsOf text) :
    NoEdgeWS p ∧ p ≠ [] := by
  rw [paragraphsOf] at hp
  obtain ⟨hmem, hne⟩ := List.mem_filter.mp hp
  obtain ⟨q, _, rfl⟩ := List.mem_map.mp hmem
  refine ⟨noEdgeWS_strip q, ?_⟩
  intro h
  rw [h] at hne
  simp at hne

theorem singleton_decomp {α : Type} {x c : α} {pre post : List α}
    (h : [x] = pre ++ c :: post) : post = [] := by
  cases pre with
  | nil =>
    simp only [List.nil_append, List.cons.injEq] at h
    exact h.2.symm
  | cons y pre =>
    simp only [List.cons_append, List.cons.injEq] at h
    exact absurd h.2.symm (by simp)

theorem isEmpty_false_of_ne {α : Type} {l : List α} (h : l ≠ []) :
    l.isEmpty = false := by
  cases l with
  | nil => exact absurd rfl h
  | cons a t => rfl

theorem chunkLoop_nil (minLen maxLen : Nat) (current : List Char) :
    chunkLoop minLen maxLen [] current
      = if current.isEmpty then [] else [strip current] := rfl

theorem chunkLoop_cons (minLen maxLen : Nat) (p : List Char)
    (rest : List (List Char)) (current : List Char) :
    chunkLoop minLen maxLen (p :: rest) current
      = if current.length + p.length ≤ maxLen then
          chunkLoop minLen maxLen rest (current ++ ' ' :: p)
        else if minLen ≤ current.length then
          strip current :: chunkLoop minLen maxLen rest p
        else
          chunkLoop minLen maxLen rest (current ++ ' ' :: p) := rfl

theorem noForce_cons (minLen maxLen : Nat) (p : List Char)
    (rest : List (List Char)) (current : List Char) :
    noForce minLen maxLen (p :: rest) current
      = if current.length + p.length ≤ maxLen then
          noForce minLen maxLen rest (current ++ ' ' :: p)
        else if minLen ≤ current.length then
          noForce minLen maxLen rest p
        else
          false := rfl

/-- From a stripped non-empty buffer (the state after any flush), every
chunk the loop emits except the final one has length at least `minLen`. -/
theorem chunkLoop_min_of_clean (minLen maxLen : Nat) :
    ∀ (paras : List (List Char)), (∀ p ∈ paras, NoEdgeWS p ∧ p ≠ []) →
    ∀ (current : List Char), NoEdgeWS current → current ≠ [] →
    ∀ (pre post : List (List Char)) (c : List Char),
      chunkLoop minLen maxLen paras current = pre ++ c :: post → post ≠ [] →
      minLen ≤ c.length := by
  intro paras
  induction paras with
  | nil =>
    intro _ current _ hne pre post c heq hpost
    rw [chunkLoop_nil, isEmpty_false_of_ne hne] at heq
    simp only [Bool.false_eq_true, if_false] at heq
    exact absurd (singleton_decomp heq) hpost
  | cons p rest ih =>
    intro hall current hcur hne pre post c heq hpost
    have hp := hall p (List.mem_cons_self p rest)
    have hall' : ∀ q ∈ rest, NoEdgeWS q ∧ q ≠ [] :=
      fun q hq => hall q (List.mem_cons_of_mem p hq)
    rw [chunkLoop_cons] at heq
    split_ifs at heq with h1 h2
    · exact ih hall' (current ++ ' ' :: p)
        (noEdgeWS_append_space hcur hp.1 hne hp.2) (by simp) pre post c heq hpost
    · rw [strip_eq_self hcur] at heq
      cases pre with
      | nil =>
        simp only [List.nil_append, List.cons.injEq] at heq
        rw [← heq.1]
        exact h2
      | cons q pre' =>
        simp only [List.cons_append, List.cons.injEq] at heq
        exact ih hall' p hp.1 hp.2 pre' post c heq.2 hpost
    · exact ih hall' (current ++ ' ' :: p)
        (noEdgeWS_append_space hcur hp.1 hne hp.2) (by simp) pre post c heq hpost

/-- From the initial state (empty buffer, or the single leading space the
first `current += " " + p` introduces), every chunk except the final one
has length at least `minLen - 1`, and at least `minLen` unless it is the
very first chunk emitted. -/
theorem chunkLoop_min_from_start (minLen maxLen : Nat) :
    ∀ (paras : List (List Char)), (∀ p ∈ paras, NoEdgeWS p ∧ p ≠ []) →
    ∀ (current : List Char),
      (current = [] ∨ ∃ c0, current = ' ' :: c0 ∧ NoEdgeWS c0 ∧ c0 ≠ []) →
    ∀ (pre post : List (List Char)) (c : List Char),
      chunkLoop minLen maxLen paras current = pre ++ c :: post → post ≠ [] →
      minLen - 1 ≤ c.length ∧ (pre ≠ [] → minLen ≤ c.length) := by
  intro paras
  induction paras with
  | nil =>
    intro _ current hseed pre post c heq hpost
    rcases hseed with rfl | ⟨c0, rfl, _, _⟩
    · rw [chunkLoop_nil] at heq
      simp only [List.isEmpty_nil, if_true] at heq
      exact absurd heq.symm (by simp)
    · rw [chunkLoop_nil] at heq
      simp only [List.isEmpty_cons, Bool.false_eq_true, if_false] at heq
      exact absurd (singleton_decomp heq) hpost
  | cons p rest ih =>
    intro hall current hseed pre post c heq hpost
    have hp := hall p (List.mem_cons_self p rest)
    have hall' : ∀ q ∈ rest, NoEdgeWS q ∧ q ≠ [] :=
      fun q hq => hall q (List.mem_cons_of_mem p hq)
    have seedStep : ((current ++ ' ' :: p) = [] ∨
        ∃ c0, current ++ ' ' :: p = ' ' :: c0 ∧ NoEdgeWS c0 ∧ c0 ≠ []) := by
      rcases hseed with rfl | ⟨c0, rfl, hc0, hc0ne⟩
      · exact Or.inr ⟨p, rfl, hp.1, hp.2⟩
      · exact Or.inr ⟨c0 ++ ' ' :: p, rfl,
          noEdgeWS_append_space hc0 hp.1 hc0ne hp.2, by simp⟩
    rw [chunkLoop_cons] at heq
    split_ifs at heq with h1 h2
    · exact ih hall' (current ++ ' ' :: p) seedStep pre post c heq hpost
    · rcases hseed with rfl | ⟨c0, rfl, hc0, hc0ne⟩
      · -- flush with an empty buffer (only possible when minLen = 0)
        have hmin : minLen = 0 := Nat.le_zero.mp (by simpa using h2)
        cases pre with
        | nil =>
          refine ⟨by omega, fun hne => absurd rfl hne⟩
        | cons q pre' =>
          simp only [List.cons_append, List.cons.injEq] at heq
          have := chunkLoop_min_of_clean minLen maxLen rest hall' p hp.1 hp.2
            pre' post c heq.2 hpost
          exact ⟨by omega, fun _ => this⟩
      · rw [strip_space_cons hc0] at heq
        cases pre with
        | nil =>
          simp only [List.nil_append, List.cons.injEq] at heq
          have hlen : minLen ≤ c0.length + 1 := by simpa using h2
          refine ⟨?_, fun hne => absurd rfl hne⟩
          rw [← heq.1]
          omega
        | cons q pre' =>
          simp only [List.cons_append, List.cons.injEq] at heq
          have := chunkLoop_min_of_clean minLen maxLen rest hall' p hp.1 hp.2
            pre' post c heq.2 hpost
          exact ⟨by omega, fun _ => this⟩
    · exact ih hall' (current ++ ' ' :: p) seedStep pre post c heq hpost

/-- When no force-append happens and every paragraph fits in `maxLen`,
the loop's buffer never exceeds `maxLen + 1` characters, and hence neither
does any emitted chunk. -/
theorem chunkLoop_max_bound (minLen maxLen : Nat) :
    ∀ (paras : List (List Char)), (∀ p ∈ paras, p.length ≤ maxLen) →
    ∀ (current : List Char), current.length ≤ maxLen + 1 →
      noForce minLen maxLen paras current = true →
      ∀ c ∈ chunkLoop minLen maxLen paras current, c.length ≤ maxLen + 1 := by
  intro paras
  induction paras with
  | nil =>
    intro _ current hcur _ c hc
    rw [chunkLoop_nil] at hc
    cases he : current.isEmpty
    · rw [he] at hc
      simp only [Bool.false_eq_true, if_false, List.mem_singleton] at hc
      exact hc ▸ le_trans (strip_length_le current) hcur
    · rw [he] at hc
      simp at hc
  | cons p rest ih =>
    intro hall current hcur hnf c hc
    have hp := hall p (List.mem_cons_self p rest)
    have hall' : ∀ q ∈ rest, q.length ≤ maxLen :=
      fun q hq => hall q (List.mem_cons_of_mem p hq)
    rw [chunkLoop_cons] at hc
    rw [noForce_cons] at hnf
    split_ifs at hc hnf with h1 h2
    · refine ih hall' (current ++ ' ' :: p) ?_ hnf c hc
      simp only [List.length_append, List.length_cons]
      omega
    · rcases List.mem_cons.mp hc with rfl | hmem
      · exact le_trans (strip_length_le current) hcur
      · exact ih hall' p (Nat.le_succ_of_le hp) hnf c hmem

theorem splitParaAux_no_nl : ∀ (acc l : List Char), (∀ c ∈ l, c ≠ '\n') →
    splitParaAux acc l = [acc.reverse ++ l] := by
  intro acc l
  induction acc, l using splitParaAux.induct with
  | case1 acc rest ih =>
    intro h
    exact absurd rfl (h '\n' (by simp))
  | case2 acc c rest hne ih =>
    intro h
    simp only [splitParaAux]
    rw [ih (fun x hx => h x (List.mem_cons_of_mem c hx))]
    simp
  | case3 acc =>
    intro _
    simp [splitParaAux]

/-- A text that is one single paragraph (no newline anywhere, no edge
whitespace) longer than `maxLen` is emitted as one intact chunk: the
force-append branch fires once and the whole text is flushed at the end.
There is no sentence-boundary splitting anywhere in `semantic_chunk`. -/
theorem semantic_chunk_single_long_para (text : List Char) (minLen maxLen : Nat)
    (hnl : ∀ c ∈ text, c ≠ '\n') (hclean : NoEdgeWS text) (hne : text ≠ [])
    (hmin : 0 < minLen) (hbig : maxLen < text.length) :
    semantic_chunk text minLen maxLen = [text] := by
  have hpara : paragraphsOf text = [text] := by
    rw [paragraphsOf, splitPara, splitParaAux_no_nl [] text hnl]
    simp [strip_eq_self hclean, isEmpty_false_of_ne hne]
  rw [semantic_chunk, hpara, chunkLoop_cons,
    if_neg (by simp; omega), if_neg (by simp; omega), List.nil_append,
    chunkLoop_nil, if_neg (by simp), strip_space_cons hclean]

/-- `NoEdgeWS` holds for any non-empty replicate of a non-whitespace char. -/
theorem noEdgeWS_replicate (n : Nat) (a : Char) (ha : isWS a = false) :
    NoEdgeWS (List.replicate n a) := by
  constructor
  · intro x hx
    have := List.eq_of_mem_replicate (List.mem_of_mem_head? hx)
    exact this ▸ ha
  · intro x hx
    have := List.eq_of_mem_replicate (List.mem_of_mem_getLast? hx)
    exact this ▸ ha

theorem replicate_ne_nil (n : Nat) (a : Char) (h : 0 < n) :
    List.replicate n a ≠ [] := by
  cases n with
  | zero => exact absurd h (by decide)
  | succ m => rw [List.replicate_succ]; exact List.cons_ne_nil a _

/-! ### Claim theorems for the Segmenter -/

/-- C1 (counterexample): the segmenter does **not** split an oversized
paragraph at sentence boundaries.  A 5000-character single paragraph with
`max_size = 1000` comes back as exactly one segment of 5000 characters —
not "multiple segments, each at most about 1000 characters". -/
theorem C1_counterexample :
    (semantic_chunk (List.replicate 5000 'a') 300 1000).length = 1 ∧
    ∀ c ∈ semantic_chunk (List.replicate 5000 'a') 300 1000,
      c.length = 5000 := by
  have h := semantic_chunk_single_long_para (List.replicate 5000 'a') 300 1000
    (fun c hc => by rw [List.eq_of_mem_replicate hc]; decide)
    (noEdgeWS_replicate 5000 'a' (by decide))
    (replicate_ne_nil 5000 'a' (by decide)) (by decide)
    (by rw [List.length_replicate]; decide)
  rw [h]
  refine ⟨rfl, ?_⟩
  intro c hc
  rw [List.mem_singleton.mp hc, List.length_replicate]

/-- C1 (amended): when the whole input is one paragraph (no newline, no
edge whitespace) longer than `max_size`, `semantic_chunk` does not break
it up at all: it returns that paragraph as the single segment, so the
content is trivially reconstructed but no segment respects `max_size`. -/
theorem C1_oversized_paragraph_intact (text : List Char) (minLen maxLen : Nat)
    (hnl : ∀ c ∈ text, c ≠ '\n') (hclean : NoEdgeWS text) (hne : text ≠ [])
    (hmin : 0 < minLen) (hbig : maxLen < text.length) :
    semantic_chunk text minLen maxLen = [text] :=
  semantic_chunk_single_long_para text minLen maxLen hnl hclean hne hmin hbig

/-- Witness for C1: the amended statement applied to the 5000-character
single-paragraph scenario with bounds 300/1000. -/
theorem C1_witness :
    semantic_chunk (List.replicate 5000 'a') 300 1000
      = [List.replicate 5000 'a'] :=
  C1_oversized_paragraph_intact (List.replicate 5000 'a') 300 1000
    (fun c hc => by rw [List.eq_of_mem_replicate hc]; decide)
    (noEdgeWS_replicate 5000 'a' (by decide))
    (replicate_ne_nil 5000 'a' (by decide)) (by decide)
    (by rw [List.length_replicate]; decide)

/-- C5: for every text and bounds with `min_size ≤ max_size`, joining the
returned segments with one space per join has exactly the words of the
input text — no word lost, none added.  Stated both for the raw
`semantic_chunk` function and for the `SemanticChunker.chunk` wrapper. -/
theorem C5_words_preserved (text : List Char) (minLen maxLen : Nat)
    (h : minLen ≤ maxLen) :
    words (joinSp (semantic_chunk text minLen maxLen)) = words text ∧
    words (joinSp (chunkerContents minLen maxLen text)) = words text := by
  constructor
  · rw [words_joinSp, flatten_words_semantic_chunk]
  · rw [chunkerContents]
    cases hg : (strip text).isEmpty
    · simp only [Bool.false_eq_true, if_false]
      rw [words_joinSp, flatten_words_semantic_chunk, words_strip,
        words_normalizeNewlines]
    · simp only [if_true]
      have : words text = [] := by
        rw [← words_strip, List.isEmpty_iff.mp hg]
        rfl
      rw [this]
      rfl

/-- Witness for C5 at a concrete two-paragraph input. -/
theorem C5_witness :
    (1 : Nat) ≤ 5 ∧
    (words (joinSp (semantic_chunk (("ab cd\n\nef".toList)) 1 5)) =
        words (("ab cd\n\nef".toList)) ∧
      words (joinSp (chunkerContents 1 5 (("ab cd\n\nef".toList)))) =
        words (("ab cd\n\nef".toList))) :=
  ⟨by decide, C5_words_preserved (("ab cd\n\nef".toList)) 1 5 (by decide)⟩

/-- C6 (counterexample): with `min_size = 5`, `max_size = 6` and the text
`"abcd\n\nxyzzyy"`, the first of the two returned segments has length 4,
below `min_size`, although it is neither the single segment of a short
text (the text has 12 characters) nor the last segment.  The cause: the
flush test measures the buffer `" abcd"` including the bookkeeping space
that `current += " " + p` prepends, but the emitted chunk is stripped. -/
theorem C6_counterexample :
    semantic_chunk (("abcd\n\nxyzzyy".toList)) 5 6
        = [("abcd".toList), ("xyzzyy".toList)] ∧
    (("abcd".toList)).length < 5 ∧
    (semantic_chunk (("abcd\n\nxyzzyy".toList)) 5 6).length = 2 ∧
    5 ≤ (("abcd\n\nxyzzyy".toList)).length := by
  refine ⟨by decide, by decide, by decide, by decide⟩

/-- C6 (amended): every segment that is not the last has length at least
`min_size - 1`, and at least `min_size` unless it is the first segment
(the first buffer carries one leading bookkeeping space, so its stripped
content can fall one character short of `min_size`). -/
theorem C6_min_size_lower_bound (text : List Char) (minLen maxLen : Nat)
    (hmm : minLen ≤ maxLen) (pre post : List (List Char)) (c : List Char)
    (heq : semantic_chunk text minLen maxLen = pre ++ c :: post)
    (hpost : post ≠ []) :
    minLen - 1 ≤ c.length ∧ (pre ≠ [] → minLen ≤ c.length) :=
  chunkLoop_min_from_start minLen maxLen (paragraphsOf text)
    (fun p hp => paragraphsOf_clean hp) [] (Or.inl rfl)
    pre post c heq hpost

/-- Witness for C6: the amended bound applied to the counterexample text;
the first segment `"abcd"` indeed has length `min_size - 1 = 4`. -/
theorem C6_witness :
    (5 : Nat) ≤ 6 ∧
    (5 - 1 ≤ (("abcd".toList)).length ∧
      (([] : List (List Char)) ≠ [] → 5 ≤ (("abcd".toList)).length)) :=
  ⟨by decide,
    C6_min_size_lower_bound (("abcd\n\nxyzzyy".toList)) 5 6 (by decide)
      [] [("xyzzyy".toList)] (("abcd".toList)) (by decide) (by decide)⟩

/-- C7 (counterexample): paragraphs `"aaaa"`, `"bbbbb"`, `"cccc"`,
`"ddddddddd"` with `min_size = 1`, `max_size = 9`.  Every paragraph fits
within `max_size` and no force-append occurs (every flush happens with the
buffer at or above `min_size`), yet the middle emitted segment
`"bbbbb cccc"` has 10 > 9 characters and is not the last segment.  The
cause: the size test `len(current) + len(p) <= max_len` does not count
the joining space that the append then inserts. -/
theorem C7_counterexample :
    ((paragraphsOf (("aaaa\n\nbbbbb\n\ncccc\n\nddddddddd".toList))).all
        (fun p => p.length ≤ 9)) = true ∧
    noForce 1 9 (paragraphsOf (("aaaa\n\nbbbbb\n\ncccc\n\nddddddddd".toList))) []
        = true ∧
    semantic_chunk (("aaaa\n\nbbbbb\n\ncccc\n\nddddddddd".toList)) 1 9
        = [("aaaa".toList), ("bbbbb cccc".toList), ("ddddddddd".toList)] ∧
    9 < (("bbbbb cccc".toList)).length := by
  refine ⟨by decide, by decide, by decide, by decide⟩

/-- C7 (amended): in the steady state (no force-append, every paragraph of
the text at most `max_size`), every emitted segment — including the last —
has content length at most `max_size + 1`; the one extra character is the
joining space not counted by the size test. -/
theorem C7_max_size_ceiling (text : List Char) (minLen maxLen : Nat)
    (hpara : ∀ p ∈ paragraphsOf text, p.length ≤ maxLen)
    (hnf : noForce minLen maxLen (paragraphsOf text) [] = true) :
    ∀ c ∈ semantic_chunk text minLen maxLen, c.length ≤ maxLen + 1 :=
  chunkLoop_max_bound minLen maxLen (paragraphsOf text) hpara []
    (by simp) hnf

/-- Witness for C7: the ceiling applied to the counterexample text, whose
middle segment attains the bound `max_size + 1 = 10`. -/
theorem C7_witness :
    (("bbbbb cccc".toList)).length ≤ 9 + 1 :=
  C7_max_size_ceiling (("aaaa\n\nbbbbb\n\ncccc\n\nddddddddd".toList)) 1 9
    (by decide) (by decide) (("bbbbb cccc".toList)) (by decide)

/-! ### The heuristic analyzer (`analyzer.py`, `DocumentAnalyzer._analyze_mock`)

Python `float` arithmetic is embedded as exact rationals.  `str.lower()`
is `Char.toLower` (ASCII; every string any claim touches is ASCII). -/

def lowerStr (l : List Char) : List Char := l.map Char.toLower

/-- Python's `needle in haystack` substring test on strings. -/
def listContains (needle : List Char) : List Char → Bool
  | [] => needle.isEmpty
  | c :: t => needle.isPrefixOf (c :: t) || listContains needle t

/-- Helper for `splitOnChar`. -/
def splitOnCharAux (sep : Char) : List Char → List Char → List (List Char)
  | acc, [] => [acc.reverse]
  | acc, c :: rest =>
    if c = sep then acc.reverse :: splitOnCharAux sep [] rest
    else splitOnCharAux sep (c :: acc) rest

/-- Python `s.split(sep)` for a one-character separator
(`requirements.split('\n')`). -/
def splitOnChar (sep : Char) (l : List Char) : List (List Char) :=
  splitOnCharAux sep [] l

/-- The `□` checkbox marker that prefixes audit checklist lines. -/
def boxChar : Char := Char.ofNat 0x25A1

/-- A taxonomy entry as `_analyze_mock` consumes it: the `keywords`,
`controls` and `requirements` fields of a `ISO27001_CHECKLISTS` entry. -/
structure ChecklistInfo where
  keywords : List (List Char)
  controls : List (List Char)
  requirements : List Char
deriving DecidableEq

/-- `ISO27001_CHECKLISTS.get(checklist_id, {})` for an unknown id: the
empty dict, i.e. `.get` defaults of `[]`, `[]`, `""`. -/
def emptyChecklist : ChecklistInfo := ⟨[], [], []⟩

/-- Audit checklist extraction (`_analyze_mock` lines 1099-1103): the
lines of `requirements` whose stripped form starts with `□`, with the
marker dropped and the remainder stripped again. -/
def auditItems (requirements : List Char) : List (List Char) :=
  (splitOnChar '\n' requirements).filterMap fun line =>
    match strip line with
    | c :: rest => if c = boxChar then some (strip rest) else none
    | [] => none

/-- Key-term extraction for one audit item (`_analyze_mock` line 1114):
`[word.lower() for word in item.split() if len(word) > 4][:3]` — the
first three words longer than four characters, in order of appearance. -/
def codeKeyTerms (item : List Char) : List (List Char) :=
  (((words item).filter fun w => 4 < w.length).map lowerStr).take 3

/-- The audit-coverage loop (`_analyze_mock` lines 1110-1118): counts the
satisfied items and collects the unsatisfied ones in order. -/
def auditScan (contentLower : List Char) : List (List Char) → Nat × List (List Char)
  | [] => (0, [])
  | item :: rest =>
    let found := (codeKeyTerms item).any fun t => listContains t contentLower
    let r := auditScan contentLower rest
    if found then (r.1 + 1, r.2) else (r.1, item :: r.2)

/-- `keyword_matches` (`_analyze_mock` line 1106). -/
def keywordMatches (contentLower : List Char) (keywords : List (List Char)) : Nat :=
  keywords.countP fun kw => listContains (lowerStr kw) contentLower

/-- `keyword_ratio` (`_analyze_mock` line 1107): matches over keyword
count, `0` when there are no keywords. -/
def keywordRatio (contentLower : List Char) (keywords : List (List Char)) : ℚ :=
  if keywords.isEmpty then 0
  else (keywordMatches contentLower keywords : ℚ) / keywords.length

/-- `audit_ratio` (`_analyze_mock` line 1120): satisfied over total audit
items, falling back to `keyword_ratio` when there is no checklist. -/
def auditRatio (content : List Char) (info : ChecklistInfo) : ℚ :=
  let items := auditItems info.requirements
  if items.isEmpty then keywordRatio (lowerStr content) info.keywords
  else ((auditScan (lowerStr content) items).1 : ℚ) / items.length

/-- `combined_ratio` (`_analyze_mock` line 1123): the average of the two
ratios when audit items exist, else the keyword ratio alone. -/
def combinedRatio (content : List Char) (info : ChecklistInfo) : ℚ :=
  if (auditItems info.requirements).isEmpty then
    keywordRatio (lowerStr content) info.keywords
  else (keywordRatio (lowerStr content) info.keywords + auditRatio content info) / 2

/-- Round half to even on an exact rational, the behaviour of Python's
builtin `round` (exact-tie behaviour of binary floats is idealised to the
exact rational tie). -/
def rhe (x : ℚ) : ℤ :=
  if x - ⌊x⌋ < 1/2 then ⌊x⌋
  else if 1/2 < x - ⌊x⌋ then ⌊x⌋ + 1
  else if Even ⌊x⌋ then ⌊x⌋ else ⌊x⌋ + 1

/-- Python `round(x, 2)`. -/
def round2 (x : ℚ) : ℚ := (rhe (x * 100) : ℚ) / 100

/-- The four verdict strings of `AnalysisResult.ComplianceStatus`. -/
inductive Verdict where
  | compliant
  | partialCompliance
  | nonCompliant
  | notApplicable
deriving DecidableEq

/-- The verdict/score outcome of `_analyze_mock` (lines 1125-1137 and the
`compliance_status` / `compliance_score` entries of the returned dict at
lines 1193-1202).  The report-text fields of the dict (`summary`,
`findings`, `recommendations`, `gaps`, `comments`, `control_scores`) are
prose built from the same ratios and are not inspected by any claim. -/
structure MockResult where
  compliance_status : Verdict
  compliance_score : ℚ
deriving DecidableEq

/-- `_analyze_mock`'s verdict banding and final rounded score. -/
def analyze_mock (content : List Char) (info : ChecklistInfo) : MockResult :=
  let r := combinedRatio content info
  if r ≥ 7/10 then ⟨.compliant, round2 (7/10 + r * (3/10))⟩
  else if r ≥ 2/5 then ⟨.partialCompliance, round2 (2/5 + r * (3/10))⟩
  else if r > 0 then ⟨.nonCompliant, round2 (r * (2/5))⟩
  else ⟨.notApplicable, round2 0⟩

/-! ### The result normalizer (`DocumentAnalyzer._normalize_result`)

Payloads produced by the external scorer are JSON-like Python values. -/

/-- A Python value as the normalizer may receive it from `json.loads`. -/
inductive PyVal where
  | pnone
  | pstr (s : List Char)
  | pnum (q : ℚ)
  | pbool (b : Bool)
  | plist (l : List PyVal)
  | pdict (d : List (List Char × PyVal))

/-- Python `float(x)` as `_normalize_result` applies it: numbers and bools
coerce, `None` / lists / dicts raise `TypeError` (modelled as `none`).
Strings are treated as non-numeric (numeric strings, which Python would
parse, are not modelled; no claim involves them). -/
def pyFloat : PyVal → Option ℚ
  | .pnum q => some q
  | .pbool b => some (if b then 1 else 0)
  | _ => none

/-- Python `list(x)`: lists stay, strings yield their characters, dicts
yield their keys; `None`, numbers and bools raise `TypeError` (`none`). -/
def pyToList : PyVal → Option (List PyVal)
  | .plist l => some l
  | .pstr s => some (s.map fun c => PyVal.pstr [c])
  | .pdict d => some (d.map fun kv => PyVal.pstr kv.1)
  | _ => none

/-- Python `str(x)`.  (The rendering of numbers and containers is
abbreviated — total, but no claim inspects the summary text.) -/
def pyStr : PyVal → List Char
  | .pstr s => s
  | .pnone => ("None".toList)
  | .pnum _ => ("0".toList)
  | .pbool b => if b then ("True".toList) else ("False".toList)
  | .plist _ => ("[]".toList)
  | .pdict _ => ("{}".toList)

/-- `result.get(key, default)` on the payload dict. -/
def pyGet (payload : List (List Char × PyVal)) (k : List Char) (d : PyVal) : PyVal :=
  (payload.lookup k).getD d

/-- The `valid_statuses` list of `_normalize_result` (line 1207). -/
def validStatuses : List (List Char) :=
  [("compliant".toList), ("partial".toList),
    ("non_compliant".toList), ("not_applicable".toList)]

/-- The normalized record shape `_normalize_result` returns
(lines 1232-1241). -/
structure NormResult where
  compliance_status : List Char
  compliance_score : ℚ
  summary : List Char
  findings : List PyVal
  recommendations : List PyVal
  gaps : List PyVal
  comments : List PyVal
  control_scores : List (List Char × ℚ)

/-- The `status` block of `_normalize_result` (lines 1208-1210): unknown
or missing or non-string verdicts become `"non_compliant"`. -/
def normStatus (payload : List (List Char × PyVal)) : List Char :=
  match pyGet payload ("compliance_status".toList) (.pstr ("non_compliant".toList)) with
  | .pstr s => if s ∈ validStatuses then s else ("non_compliant".toList)
  | _ => ("non_compliant".toList)

/-- The `score` block of `_normalize_result` (lines 1212-1217): coerce to
float and clamp to `[0,1]`; `0.5` on coercion failure. -/
def normScoreVal (payload : List (List Char × PyVal)) : ℚ :=
  match pyFloat (pyGet payload ("compliance_score".toList) (.pnum (1/2))) with
  | some q => max 0 (min 1 q)
  | none => 1/2

/-- The `control_scores` block of `_normalize_result` (lines 1220-1230):
per-entry coercion, clamp and round, `0.5` per entry on failure; a
non-dict value yields the empty map. -/
def normControls (payload : List (List Char × PyVal)) : List (List Char × ℚ) :=
  match pyGet payload ("control_scores".toList) (.pdict []) with
  | .pdict d => d.map fun kv =>
      (kv.1, match pyFloat kv.2 with
        | some q => round2 (max 0 (min 1 q))
        | none => (1 : ℚ)/2)
  | _ => []

/-- `_normalize_result` (lines 1204-1241).  `none` models an uncaught
exception escaping the function (Python raises `TypeError` when a list
field holds a non-iterable such as `None`: `list(None)` at lines
1236-1239 is outside any `try`). -/
def normalizeResult (payload : List (List Char × PyVal)) : Option NormResult :=
  let status := normStatus payload
  let score := normScoreVal payload
  let control_scores := normControls payload
  do
    let findings ← pyToList (pyGet payload ("findings".toList) (.plist []))
    let recommendations ← pyToList (pyGet payload ("recommendations".toList) (.plist []))
    let gaps ← pyToList (pyGet payload ("gaps".toList) (.plist []))
    let comments ← pyToList (pyGet payload ("comments".toList) (.plist []))
    pure
      { compliance_status := status
        compliance_score := round2 score
        summary := (pyStr (pyGet payload ("summary".toList) (.pstr []))).take 2000
        findings := findings.take 10
        recommendations := recommendations.take 10
        gaps := gaps.take 10
        comments := comments.take 10
        control_scores := control_scores }

/-- The four list fields of the payload. -/
def listFieldNames : List (List Char) :=
  [("findings".toList), ("recommendations".toList),
    ("gaps".toList), ("comments".toList)]

/-- `true` iff every list field that is present in the payload holds a
value Python's `list(...)` accepts (list, string or dict). -/
def listFieldsOk (payload : List (List Char × PyVal)) : Bool :=
  listFieldNames.all fun f =>
    match payload.lookup f with
    | some v => (pyToList v).isSome
    | none => true

/-! ### The analysis orchestrator (`DocumentAnalyzer.analyze`) -/

/-- `AnalysisResult.Status` (`models.py` lines 133-137). -/
inductive AStatus where
  | pending
  | processing
  | completed
  | failed
deriving DecidableEq

/-- The fields of the `AnalysisResult` model record that `analyze`
reads or writes, with `completed_at` as a presence flag.  The report-text
fields (`summary`, `findings`, …) merged from the scorer result are not
modelled — no claim inspects them. -/
structure AnalysisResult where
  checklist_id : Nat
  status : AStatus
  compliance_status : Option Verdict
  compliance_score : ℚ
  error_message : Option (List Char)
  completed_at : Bool

/-- A freshly created record: `pending`, no verdict, score 0, no error,
no completion stamp (`models.py` defaults). -/
def freshRecord (id : Nat) : AnalysisResult :=
  ⟨id, .pending, none, 0, none, false⟩

/-- The control characters removed by `_sanitize_text` (line 844):
`[\x00-\x08\x0b\x0c\x0e-\x1f\x7f]`.  (Surrogate handling at lines 838-841
is vacuous here: Lean `Char` cannot hold surrogates.) -/
def sanitizeRemoved (c : Char) : Bool :=
  (c.toNat ≤ 0x08) || c.toNat = 0x0b || c.toNat = 0x0c ||
  (0x0e ≤ c.toNat && c.toNat ≤ 0x1f) || c.toNat = 0x7f

/-- `_sanitize_text` (lines 829-846). -/
def sanitizeText (l : List Char) : List Char :=
  l.filter fun c => !sanitizeRemoved c

/-- `"\n\n".join(chunk.get("content", "") for chunk in document_chunks)`
(lines 881-883), with chunks modelled by their content strings. -/
def combineChunks (chunks : List (List Char)) : List Char :=
  List.intercalate ('\n' :: '\n' :: []) chunks

/-- `ISO27001_CHECKLISTS.get(checklist_id, {})` (line 871) over an
arbitrary registry association list. -/
def registryGet (registry : List (Nat × ChecklistInfo)) (id : Nat) : ChecklistInfo :=
  (registry.lookup id).getD emptyChecklist

/-- The fixed guard error message (line 893). -/
def failMsg : List Char := ("No document content to analyze".toList)

/-- `DocumentAnalyzer.analyze` (lines 848-971) on the deterministic
(heuristic) path: set `processing`, combine and sanitize the chunk
contents, fail fast on blank content, otherwise score with
`_analyze_mock` and complete.  The Azure branch (line 899) is an optional
external network collaborator; when it errors the code falls back to
`_analyze_mock` (line 1080), so the heuristic path is the guaranteed
one modelled here.  The `except` handler (lines 965-971) marks the record
`failed`; in this total model no step can raise, so the only failure path
is the guard. -/
def analyze (registry : List (Nat × ChecklistInfo)) (record : AnalysisResult)
    (chunks : List (List Char)) : Bool × AnalysisResult :=
  let rec1 : AnalysisResult := { record with status := .processing }
  let info := registryGet registry record.checklist_id
  let combined := sanitizeText (combineChunks chunks)
  if (strip combined).isEmpty then
    (false, { rec1 with status := .failed, error_message := some failMsg })
  else
    let result := analyze_mock combined info
    (true, { rec1 with
      status := .completed
      compliance_status := some result.compliance_status
      compliance_score := result.compliance_score
      completed_at := true })

/-! ### Support lemmas for the analyzer claims -/

section AnalyzerClaims

attribute [local semireducible] Rat.add Rat.sub Rat.mul Rat.inv

theorem rhe_nonneg {x : ℚ} (h : 0 ≤ x) : 0 ≤ rhe x := by
  have hf : (0 : ℤ) ≤ ⌊x⌋ := Int.floor_nonneg.mpr h
  rw [rhe]
  split_ifs <;> omega

theorem rhe_le {x : ℚ} {n : ℕ} (h : x ≤ (n : ℚ)) : rhe x ≤ n := by
  have hf : ⌊x⌋ ≤ (n : ℤ) := by
    have := Int.floor_le_floor h
    rwa [Int.floor_natCast] at this
  have hstep : ¬ (x - ⌊x⌋ < 1/2) → ⌊x⌋ + 1 ≤ (n : ℤ) := by
    intro hlt
    have h2 : (1:ℚ)/2 ≤ x - ⌊x⌋ := le_of_not_lt hlt
    have h3 : (⌊x⌋ : ℚ) < x := by linarith
    have h4 : (⌊x⌋ : ℚ) < (n : ℚ) := lt_of_lt_of_le h3 h
    have h5 : ⌊x⌋ < (n : ℤ) := by exact_mod_cast h4
    omega
  rw [rhe]
  split_ifs with h1 h2 h3
  · exact hf
  · exact hstep h1
  · exact hf
  · exact hstep h1

theorem round2_bounds {q : ℚ} (h0 : 0 ≤ q) (h1 : q ≤ 1) :
    0 ≤ round2 q ∧ round2 q ≤ 1 := by
  have e0 : (0 : ℚ) ≤ q * 100 := by positivity
  have e1 : q * 100 ≤ ((100 : ℕ) : ℚ) := by push_cast; linarith
  have a := rhe_nonneg e0
  have b := rhe_le e1
  constructor
  · rw [round2]
    apply div_nonneg _ (by norm_num)
    exact_mod_cast a
  · rw [round2, div_le_one (by norm_num)]
    exact_mod_cast b

theorem round2_zero : round2 0 = 0 := by decide

theorem round2_half : round2 (1/2) = 1/2 := by decide

theorem clamp01_bounds (q : ℚ) : 0 ≤ max 0 (min 1 q) ∧ max 0 (min 1 q) ≤ 1 :=
  ⟨le_max_left 0 _, max_le (by norm_num) (min_le_left 1 q)⟩

theorem all_ws_of_strip_eq_nil {l : List Char} (h : strip l = []) :
    ∀ c ∈ l, isWS c = true := by
  rw [strip] at h
  have h2 : (l.dropWhile isWS).reverse.dropWhile isWS = [] := by
    have := congrArg List.reverse h
    rwa [List.reverse_reverse, List.reverse_nil] at this
  have hm := List.dropWhile_eq_nil_iff.mp h2
  intro c hc
  rw [← List.takeWhile_append_dropWhile (p := isWS) (l := l)] at hc
  rcases List.mem_append.mp hc with hl | hr
  · exact List.mem_takeWhile_imp hl
  · exact hm c (List.mem_reverse.mpr hr)

theorem strip_eq_nil_of_all_ws {l : List Char} (h : ∀ c ∈ l, isWS c = true) :
    strip l = [] := by
  have h1 : l.dropWhile isWS = [] := List.dropWhile_eq_nil_iff.mpr h
  rw [strip, h1]
  rfl

theorem strip_sanitize_eq_nil {l : List Char} (h : strip l = []) :
    strip (sanitizeText l) = [] :=
  strip_eq_nil_of_all_ws fun c hc =>
    all_ws_of_strip_eq_nil h c (List.mem_of_mem_filter hc)

theorem normStatus_mem (payload : List (List Char × PyVal)) :
    normStatus payload ∈ validStatuses := by
  rw [normStatus]
  split
  · split
    · assumption
    · decide
  · decide

theorem normScoreVal_bounds (payload : List (List Char × PyVal)) :
    0 ≤ normScoreVal payload ∧ normScoreVal payload ≤ 1 := by
  rw [normScoreVal]
  split
  · exact clamp01_bounds _
  · norm_num

theorem normControls_bounds (payload : List (List Char × PyVal)) :
    ∀ kv ∈ normControls payload, 0 ≤ kv.2 ∧ kv.2 ≤ 1 := by
  rw [normControls]
  split
  · intro kv hkv
    obtain ⟨ab, _, rfl⟩ := List.mem_map.mp hkv
    dsimp only
    split
    · exact round2_bounds (clamp01_bounds _).1 (clamp01_bounds _).2
    · norm_num
  · intro kv hkv
    simp at hkv

/-- C2 (counterexample): the normalizer is **not** total.  On the payload
`{"findings": None}` Python evaluates `list(None)` outside any `try` and
raises `TypeError`; the claim says it never raises for payloads whose
list fields are `None`. -/
theorem C2_counterexample :
    (normalizeResult [(("findings".toList), PyVal.pnone)]).isNone = true := by
  decide

/-- C2 (amended): provided every list field that is present holds an
iterable value (list, string or dict — in particular whenever the field
is absent), the normalizer returns a record satisfying all the claimed
invariants: a valid verdict string with `non_compliant` substituted for a
missing or unknown verdict, a score in `[0,1]` with `0.5` on coercion
failure, every list field truncated to 10 entries, the summary truncated
to 2000 characters, and every control score in `[0,1]`. -/
theorem C2_normalizer_invariants (payload : List (List Char × PyVal))
    (h : listFieldsOk payload = true) :
    ∃ r, normalizeResult payload = some r ∧
      r.compliance_status ∈ validStatuses ∧
      (0 ≤ r.compliance_score ∧ r.compliance_score ≤ 1) ∧
      (payload.lookup ("compliance_status".toList) = none →
        r.compliance_status = ("non_compliant".toList)) ∧
      (∀ s, payload.lookup ("compliance_status".toList) = some (.pstr s) →
        s ∉ validStatuses → r.compliance_status = ("non_compliant".toList)) ∧
      (∀ v, payload.lookup ("compliance_score".toList) = some v →
        pyFloat v = none → r.compliance_score = 1/2) ∧
      r.findings.length ≤ 10 ∧ r.recommendations.length ≤ 10 ∧
      r.gaps.length ≤ 10 ∧ r.comments.length ≤ 10 ∧
      r.summary.length ≤ 2000 ∧
      (∀ kv ∈ r.control_scores, 0 ≤ kv.2 ∧ kv.2 ≤ 1) := by
  have hfield : ∀ f ∈ listFieldNames,
      ∃ l, pyToList (pyGet payload f (.plist [])) = some l := by
    intro f hf
    have hall := List.all_eq_true.mp h f hf
    rw [pyGet]
    cases hl : payload.lookup f with
    | none => exact ⟨[], rfl⟩
    | some v =>
      rw [hl] at hall
      simp only at hall
      exact Option.isSome_iff_exists.mp hall
  obtain ⟨lf, hlf⟩ := hfield ("findings".toList) (by decide)
  obtain ⟨lr, hlr⟩ := hfield ("recommendations".toList) (by decide)
  obtain ⟨lg, hlg⟩ := hfield ("gaps".toList) (by decide)
  obtain ⟨lc, hlc⟩ := hfield ("comments".toList) (by decide)
  refine ⟨⟨normStatus payload, round2 (normScoreVal payload),
      (pyStr (pyGet payload ("summary".toList) (.pstr []))).take 2000,
      lf.take 10, lr.take 10, lg.take 10, lc.take 10, normControls payload⟩,
    ?_, normStatus_mem payload,
    round2_bounds (normScoreVal_bounds payload).1 (normScoreVal_bounds payload).2,
    ?_, ?_, ?_,
    (by rw [List.length_take]; exact min_le_left _ _),
    (by rw [List.length_take]; exact min_le_left _ _),
    (by rw [List.length_take]; exact min_le_left _ _),
    (by rw [List.length_take]; exact min_le_left _ _),
    (by rw [List.length_take]; exact min_le_left _ _),
    normControls_bounds payload⟩
  · rw [normalizeResult]
    rw [hlf, hlr, hlg, hlc]
    rfl
  · intro hn
    have hx : normStatus payload = ("non_compliant".toList) := by
      rw [normStatus, pyGet, hn]
      decide
    exact hx
  · intro s hs hsmem
    have hx : normStatus payload = ("non_compliant".toList) := by
      rw [normStatus, pyGet, hs]
      simp only [Option.getD_some]
      rw [if_neg hsmem]
    exact hx
  · intro v hv hvf
    have hx : round2 (normScoreVal payload) = 1/2 := by
      rw [normScoreVal, pyGet, hv]
      simp only [Option.getD_some]
      rw [hvf, round2_half]
    exact hx

/-- Witness for C2: the amended statement applied to the empty payload. -/
theorem C2_witness :
    listFieldsOk ([] : List (List Char × PyVal)) = true ∧
    ∃ r, normalizeResult ([] : List (List Char × PyVal)) = some r ∧
      r.compliance_status ∈ validStatuses ∧
      (0 ≤ r.compliance_score ∧ r.compliance_score ≤ 1) ∧
      (([] : List (List Char × PyVal)).lookup ("compliance_status".toList) = none →
        r.compliance_status = ("non_compliant".toList)) ∧
      (∀ s, ([] : List (List Char × PyVal)).lookup ("compliance_status".toList)
          = some (.pstr s) →
        s ∉ validStatuses → r.compliance_status = ("non_compliant".toList)) ∧
      (∀ v, ([] : List (List Char × PyVal)).lookup ("compliance_score".toList) = some v →
        pyFloat v = none → r.compliance_score = 1/2) ∧
      r.findings.length ≤ 10 ∧ r.recommendations.length ≤ 10 ∧
      r.gaps.length ≤ 10 ∧ r.comments.length ≤ 10 ∧
      r.summary.length ≤ 2000 ∧
      (∀ kv ∈ r.control_scores, 0 ≤ kv.2 ∧ kv.2 ≤ 1) :=
  ⟨by decide, C2_normalizer_invariants ([] : List (List Char × PyVal)) (by decide)⟩

/-- The verdict banding exactly as the claim words it (inclusive lower
bounds, explicit band intervals). -/
def bandVerdictSpec (r : ℚ) : Verdict :=
  if 7/10 ≤ r then .compliant
  else if 2/5 ≤ r ∧ r < 7/10 then .partialCompliance
  else if 0 < r ∧ r < 2/5 then .nonCompliant
  else .notApplicable

/-- The score formula exactly as the claim words it, per band. -/
def bandScoreSpec (r : ℚ) : ℚ :=
  if 7/10 ≤ r then 7/10 + 3/10 * r
  else if 2/5 ≤ r ∧ r < 7/10 then 2/5 + 3/10 * r
  else if 0 < r ∧ r < 2/5 then 2/5 * r
  else 0

/-- The claim's band conditions coincide with the code's `if`-cascade. -/
theorem bandVerdictSpec_eq (r : ℚ) :
    bandVerdictSpec r
      = if r ≥ 7/10 then Verdict.compliant
        else if r ≥ 2/5 then Verdict.partialCompliance
        else if r > 0 then Verdict.nonCompliant
        else Verdict.notApplicable := by
  rw [bandVerdictSpec]
  by_cases h1 : (7:ℚ)/10 ≤ r
  · simp [h1, ge_iff_le]
  · by_cases h2 : (2:ℚ)/5 ≤ r
    · have hb : (2:ℚ)/5 ≤ r ∧ r < 7/10 := ⟨h2, lt_of_not_le h1⟩
      simp [h1, h2, hb, ge_iff_le]
    · by_cases h3 : (0:ℚ) < r
      · have hb : (0:ℚ) < r ∧ r < 2/5 := ⟨h3, lt_of_not_le h2⟩
        simp [h1, h2, h3, hb, ge_iff_le]
      · simp [h1, h2, h3, ge_iff_le]

/-- The claim's score formulas coincide with the code's, band by band. -/
theorem bandScoreSpec_eq (r : ℚ) :
    bandScoreSpec r
      = if r ≥ 7/10 then 7/10 + r * (3/10)
        else if r ≥ 2/5 then 2/5 + r * (3/10)
        else if r > 0 then r * (2/5)
        else 0 := by
  rw [bandScoreSpec]
  by_cases h1 : (7:ℚ)/10 ≤ r
  · simp only [h1, if_true, ge_iff_le]
    ring
  · by_cases h2 : (2:ℚ)/5 ≤ r
    · have hb : (2:ℚ)/5 ≤ r ∧ r < 7/10 := ⟨h2, lt_of_not_le h1⟩
      rw [if_neg h1, if_pos hb, if_neg (show ¬ r ≥ 7/10 from h1),
        if_pos (show r ≥ 2/5 from h2)]
      ring
    · by_cases h3 : (0:ℚ) < r
      · have hb : (0:ℚ) < r ∧ r < 2/5 := ⟨h3, lt_of_not_le h2⟩
        rw [if_neg h1, if_neg (fun hx => h2 hx.1), if_pos hb,
          if_neg (show ¬ r ≥ 7/10 from h1), if_neg (show ¬ r ≥ 2/5 from h2),
          if_pos (show r > 0 from h3)]
        ring
      · rw [if_neg h1, if_neg (fun hx => h2 hx.1), if_neg (fun hx => h3 hx.1),
          if_neg (show ¬ r ≥ 7/10 from h1), if_neg (show ¬ r ≥ 2/5 from h2),
          if_neg (show ¬ r > 0 from h3)]

/-- C3: the heuristic scorer's verdict and score are exactly the claimed
bands of `combined_ratio` (scores rounded to 2 decimals), and in the
scenario — keywords `password`/`encryption`, no requirement checklist,
text containing only `password` — the keyword ratio is `0.5`, the verdict
is `partial` and the score lies in `[0.55, 0.7)`. -/
theorem C3_verdict_score_banding :
    (∀ (content : List Char) (info : ChecklistInfo),
      (analyze_mock content info).compliance_status
          = bandVerdictSpec (combinedRatio content info) ∧
      (analyze_mock content info).compliance_score
          = round2 (bandScoreSpec (combinedRatio content info))) ∧
    (keywordRatio (lowerStr ("password".toList))
        [("password".toList), ("encryption".toList)] = 1/2 ∧
      combinedRatio ("password".toList)
        ⟨[("password".toList), ("encryption".toList)], [], []⟩ = 1/2 ∧
      (analyze_mock ("password".toList)
        ⟨[("password".toList), ("encryption".toList)], [], []⟩).compliance_status
          = .partialCompliance ∧
      11/20 ≤ (analyze_mock ("password".toList)
        ⟨[("password".toList), ("encryption".toList)], [], []⟩).compliance_score ∧
      (analyze_mock ("password".toList)
        ⟨[("password".toList), ("encryption".toList)], [], []⟩).compliance_score
          < 7/10) := by
  constructor
  · intro content info
    rw [analyze_mock, bandVerdictSpec_eq, bandScoreSpec_eq]
    set r := combinedRatio content info with hr
    split_ifs <;> exact ⟨rfl, rfl⟩
  · refine ⟨by decide, by decide, by decide, by decide, by decide⟩

/-- Modelled from the spec's words ("extract its 3 longest words (≥5
characters) as discriminating terms"): the qualifying words sorted by
length, longest first (stable insertion sort), first three, lower-cased.
This is the comparison definition for the refutation of C8; the code's
actual rule is `codeKeyTerms`. -/
def specLongestTerms (item : List Char) : List (List Char) :=
  ((((words item).filter fun w => 5 ≤ w.length).insertionSort
      fun a b => b.length ≤ a.length).take 3).map lowerStr

/-- C8 (counterexample): the discriminating terms are **not** the 3
longest qualifying words.  For the audit item
`"alpha1 beta22 gamma3 extremelylongword"` the code takes the *first*
three words longer than 4 characters (`alpha1`, `beta22`, `gamma3`), so a
text consisting of exactly `extremelylongword` — the longest word of the
item — satisfies no code key term and the item counts as unsatisfied,
while under the claimed "3 longest words" rule it would be satisfied. -/
theorem C8_counterexample :
    ((codeKeyTerms (("alpha1 beta22 gamma3 extremelylongword".toList))).any
        fun t => listContains t (("extremelylongword".toList))) = false ∧
    ((specLongestTerms (("alpha1 beta22 gamma3 extremelylongword".toList))).any
        fun t => listContains t (("extremelylongword".toList))) = true ∧
    (auditScan (("extremelylongword".toList))
        (auditItems (("□ alpha1 beta22 gamma3 extremelylongword".toList)))).1 = 0 ∧
    auditItems (("□ alpha1 beta22 gamma3 extremelylongword".toList))
        = [("alpha1 beta22 gamma3 extremelylongword".toList)] := by
  refine ⟨by decide, by decide, by decide, by decide⟩

/-- C8 (amended): the discriminating terms for an item are its **first**
3 words of at least 5 characters (in order of appearance), lower-cased;
an item counts as satisfied iff at least one such term occurs in the
lower-cased text; the audit loop counts exactly the satisfied items and
collects exactly the unsatisfied ones, and `requirement_ratio` is
satisfied over total, falling back to `keyword_ratio` when the taxonomy
defines no checklist. -/
theorem C8_audit_coverage :
    (∀ item, codeKeyTerms item
        = ((((words item).filter fun w => 4 < w.length).take 3).map lowerStr)) ∧
    (∀ (cl : List Char) (items : List (List Char)),
      (auditScan cl items).1
          = items.countP (fun it => (codeKeyTerms it).any fun t => listContains t cl) ∧
      (auditScan cl items).2
          = items.filter (fun it => !((codeKeyTerms it).any fun t => listContains t cl))) ∧
    (∀ (content : List Char) (info : ChecklistInfo),
      auditRatio content info
        = if (auditItems info.requirements).isEmpty
            then keywordRatio (lowerStr content) info.keywords
            else ((auditScan (lowerStr content) (auditItems info.requirements)).1 : ℚ)
              / (auditItems info.requirements).length) := by
  refine ⟨fun item => ?_, fun cl items => ?_, fun content info => rfl⟩
  · rw [codeKeyTerms, List.map_take]
  · induction items with
    | nil => exact ⟨rfl, rfl⟩
    | cons it rest ih =>
      cases hf : (codeKeyTerms it).any fun t => listContains t cl
      · refine ⟨?_, ?_⟩
        · simp [auditScan, hf, ih.1, List.countP_cons]
        · simp [auditScan, hf, ih.2, List.filter_cons]
      · refine ⟨?_, ?_⟩
        · simp [auditScan, hf, ih.1, List.countP_cons]
        · simp [auditScan, hf, ih.2, List.filter_cons]

/-- C4: when the combined chunk content is empty or whitespace-only, the
orchestrator returns `False` and moves the record straight to `failed`
with exactly the message "No document content to analyze", leaving
verdict, score and the completion stamp untouched — no scorer runs. -/
theorem C4_blank_content_fails (registry : List (Nat × ChecklistInfo))
    (record : AnalysisResult) (chunks : List (List Char))
    (h : strip (combineChunks chunks) = []) :
    analyze registry record chunks
      = (false, { record with status := .failed, error_message := some failMsg }) := by
  have hg : (strip (sanitizeText (combineChunks chunks))).isEmpty = true :=
    List.isEmpty_iff.mpr (strip_sanitize_eq_nil h)
  rw [analyze]
  rw [hg]
  rfl

/-- Witness for C4 at a single whitespace-only chunk. -/
theorem C4_witness :
    strip (combineChunks [[' ']]) = [] ∧
    analyze [] (freshRecord 1) [[' ']]
      = (false, { freshRecord 1 with status := .failed, error_message := some failMsg }) :=
  ⟨by decide, C4_blank_content_fails [] (freshRecord 1) [[' ']] (by decide)⟩

/-- `_analyze_mock` on the empty checklist info (unknown taxonomy id):
every ratio is zero, so the verdict is `not_applicable` with score 0. -/
theorem analyze_mock_empty (content : List Char) :
    analyze_mock content emptyChecklist = ⟨.notApplicable, 0⟩ := by
  have hitems : auditItems emptyChecklist.requirements = [] := rfl
  have hratio : combinedRatio content emptyChecklist = 0 := by
    rw [combinedRatio, hitems]
    simp [keywordRatio, emptyChecklist]
  rw [analyze_mock, hratio]
  norm_num
  exact round2_zero

/-- C9: an unresolved checklist id is not a hard error: with any chunks
whose combined sanitized content is non-blank, `analyze` runs the
heuristic on empty keyword/control/requirement lists without raising and
completes with verdict `not_applicable` and score 0. -/
theorem C9_unknown_checklist (registry : List (Nat × ChecklistInfo))
    (record : AnalysisResult) (chunks : List (List Char))
    (hid : registry.lookup record.checklist_id = none)
    (hne : (strip (sanitizeText (combineChunks chunks))).isEmpty = false) :
    analyze registry record chunks
      = (true, { record with
                 status := .completed,
                 compliance_status := some .notApplicable,
                 compliance_score := 0,
                 completed_at := true }) := by
  rw [analyze, hne]
  simp only [Bool.false_eq_true, if_false, registryGet, hid, Option.getD_none]
  rw [analyze_mock_empty]

/-- Witness for C9: unknown id 7 over the empty registry and one chunk
containing `"doc"`. -/
theorem C9_witness :
    (([] : List (Nat × ChecklistInfo)).lookup (freshRecord 7).checklist_id = none) ∧
    ((strip (sanitizeText (combineChunks [("doc".toList)]))).isEmpty = false) ∧
    analyze [] (freshRecord 7) [("doc".toList)]
      = (true, { freshRecord 7 with
                 status := .completed,
                 compliance_status := some .notApplicable,
                 compliance_score := 0,
                 completed_at := true }) :=
  ⟨by decide, by decide,
    C9_unknown_checklist [] (freshRecord 7) [("doc".toList)] (by decide) (by decide)⟩

/-- C10: every run of `analyze` ends in a terminal status: `completed`
(verdict and completion stamp set) or `failed` (error message set, the
completion stamp untouched), never `pending`/`processing`; the returned
boolean is `true` exactly when the final status is `completed`. -/
theorem C10_terminal_status (registry : List (Nat × ChecklistInfo))
    (record : AnalysisResult) (chunks : List (List Char)) :
    ((analyze registry record chunks).2.status = .completed ∨
      (analyze registry record chunks).2.status = .failed) ∧
    ((analyze registry record chunks).1 = true ↔
      (analyze registry record chunks).2.status = .completed) ∧
    ((analyze registry record chunks).2.status = .completed →
      ((analyze registry record chunks).2.compliance_status.isSome = true ∧
        (analyze registry record chunks).2.completed_at = true)) ∧
    ((analyze registry record chunks).2.status = .failed →
      ((analyze registry record chunks).2.error_message.isSome = true ∧
        (analyze registry record chunks).2.completed_at = record.completed_at)) := by
  rw [analyze]
  cases hg : (strip (sanitizeText (combineChunks chunks))).isEmpty
  · simp
  · simp

/-- Witness for C3: the banding applied at the scenario input. -/
theorem C3_witness :
    (analyze_mock ("password".toList)
        ⟨[("password".toList), ("encryption".toList)], [], []⟩).compliance_status
      = bandVerdictSpec (combinedRatio ("password".toList)
          ⟨[("password".toList), ("encryption".toList)], [], []⟩) :=
  (C3_verdict_score_banding.1 ("password".toList)
    ⟨[("password".toList), ("encryption".toList)], [], []⟩).1

/-- Witness for C8: the coverage characterization at a concrete item. -/
theorem C8_witness :
    (auditScan (("extremelylongword".toList))
        [("alpha1 beta22 gamma3 extremelylongword".toList)]).1
      = ([("alpha1 beta22 gamma3 extremelylongword".toList)]).countP
          (fun it => (codeKeyTerms it).any
            fun t => listContains t (("extremelylongword".toList))) :=
  (C8_audit_coverage.2.1 (("extremelylongword".toList))
    [("alpha1 beta22 gamma3 extremelylongword".toList)]).1

/-- Witness for C10: the terminal-status property at a concrete run. -/
theorem C10_witness :
    ((analyze [] (freshRecord 1) []).2.status = .completed ∨
      (analyze [] (freshRecord 1) []).2.status = .failed) ∧
    ((analyze [] (freshRecord 1) []).1 = true ↔
      (analyze [] (freshRecord 1) []).2.status = .completed) ∧
    ((analyze [] (freshRecord 1) []).2.status = .completed →
      ((analyze [] (freshRecord 1) []).2.compliance_status.isSome = true ∧
        (analyze [] (freshRecord 1) []).2.completed_at = true)) ∧
    ((analyze [] (freshRecord 1) []).2.status = .failed →
      ((analyze [] (freshRecord 1) []).2.error_message.isSome = true ∧
        (analyze [] (freshRecord 1) []).2.completed_at = (freshRecord 1).completed_at)) :=
  C10_terminal_status [] (freshRecord 1) []

end AnalyzerClaims

end Isoguard
